import Mathlib

/-!
Verification of the pacing/tokenization core of the `text-interface`
reading engine (`src/app/page.tsx`, `src/lib/condition-spec.ts`).

Text is modelled as `List Char` (JavaScript strings are sequences of
code points for every operation the core performs: `Array.from`,
`trim`, `split`, `join`, `.length` on the relevant ASCII-only
separators). Numbers that the code manipulates as JavaScript floats
(speeds, offsets, delays) are modelled as `ℚ`; `Math.round x` is
`⌊x + 1/2⌋` and `Math.floor`/`Math.max`/`Math.min` are the obvious
operations. Integer indices are `Int` with JavaScript `%` being `Int.tmod`.
-/

namespace TextInterface

/-- Set of characters matched by JavaScript `\s` (and removed by
`String.prototype.trim`): ASCII whitespace, NBSP, the Unicode space
separators, line/paragraph separators and the BOM. -/
def isJsWhitespace (c : Char) : Bool :=
  c == ' ' || c == '\t' || c == '\n' || c == '\x0b' || c == '\x0c' || c == '\r' ||
  c == ' ' || c == ' ' || (0x2000 ≤ c.toNat && c.toNat ≤ 0x200A) ||
  c == ' ' || c == ' ' || c == ' ' || c == ' ' || c == '　' ||
  c == '﻿'

/-- Negation of `isJsWhitespace`: a character that is part of a word. -/
def isWordChar (c : Char) : Bool := !(isJsWhitespace c)

/-- Leading-whitespace removal, the left half of JavaScript `trim()`. -/
def jsTrimLeft (cs : List Char) : List Char := cs.dropWhile isJsWhitespace

/-- Trailing-whitespace removal, the right half of JavaScript `trim()`. -/
def jsTrimRight (cs : List Char) : List Char := (jsTrimLeft cs.reverse).reverse

/-- JavaScript `String.prototype.trim`. -/
def jsTrim (cs : List Char) : List Char := jsTrimRight (jsTrimLeft cs)

/-- Worker for `splitWhitespaceRuns`, structurally recursive on a fuel
bound for the length of the remaining string (so that it evaluates by
kernel reduction); the fuel is always sufficient because every step
consumes at least one character. A whitespace character is skipped, and
a word character starts a token consisting of the maximal run of word
characters from that position. -/
def splitWhitespaceRunsGo : Nat → List Char → List (List Char)
  | 0, _ => []
  | _ + 1, [] => []
  | fuel + 1, c :: cs =>
      if isJsWhitespace c then splitWhitespaceRunsGo fuel cs
      else
        (c :: cs.takeWhile isWordChar) ::
          splitWhitespaceRunsGo fuel (cs.dropWhile isWordChar)

/-- The maximal runs of non-whitespace characters of a string, in order.
This is `text.trim().split(/\s+/).filter(Boolean)` from `tokenizeText`
(`src/app/page.tsx`): on a trimmed string, splitting on runs of
whitespace and dropping empty pieces yields exactly the maximal
non-whitespace runs. -/
def splitWhitespaceRuns (cs : List Char) : List (List Char) :=
  splitWhitespaceRunsGo cs.length cs

/-- The characters `.`, `!`, `?` ending a sentence (`[^.!?]+[.!?]?`). -/
def isSentenceTerminal (c : Char) : Bool := c == '.' || c == '!' || c == '?'

/-- Worker for `sentenceMatches`, structurally recursive on a fuel bound
for the length of the remaining string. -/
def sentenceMatchesGo : Nat → List Char → List (List Char)
  | 0, _ => []
  | _ + 1, [] => []
  | fuel + 1, c :: rest =>
      if isSentenceTerminal c then sentenceMatchesGo fuel rest
      else
        match rest.dropWhile (fun x => !isSentenceTerminal x) with
        | [] => [c :: rest.takeWhile (fun x => !isSentenceTerminal x)]
        | t :: rest2 =>
            ((c :: rest.takeWhile (fun x => !isSentenceTerminal x)) ++ [t]) ::
              sentenceMatchesGo fuel rest2

/-- The matches of the global regex `[^.!?]+[.!?]?` used by the
`sentence` unit of `tokenizeText`: a maximal run of non-terminal
characters followed by at most one terminal character; a terminal
character that cannot start a match is skipped. -/
def sentenceMatches (cs : List Char) : List (List Char) :=
  sentenceMatchesGo cs.length cs

/-- Tokenization units of `ConditionSpec["tokenization"]["unit"]`. -/
inductive TokenizationUnit
  | char
  | word
  | chunk
  | sentence
deriving DecidableEq

/-- Joiner used when grouping or windowing tokens:
`unit === "char" ? "" : " "`. -/
def tokenJoiner (unit : TokenizationUnit) : List Char :=
  if unit = TokenizationUnit.char then [] else [' ']

/-- Base tokens of `tokenizeText` before chunk grouping:
`char` splits into the individual characters, `sentence` matches
`[^.!?]+[.!?]?` then trims each piece and drops empties, and both
`word` and the generic `chunk` unit split the trimmed text on runs of
whitespace dropping empties. -/
def baseTokens (text : List Char) : TokenizationUnit → List (List Char)
  | TokenizationUnit.char => text.map (fun c => [c])
  | TokenizationUnit.sentence =>
      ((sentenceMatches text).map jsTrim).filter (fun t => !t.isEmpty)
  | TokenizationUnit.word => splitWhitespaceRuns (jsTrim text)
  | TokenizationUnit.chunk => splitWhitespaceRuns (jsTrim text)

/-- Worker for `chunksOf`, structurally recursive on a fuel bound for
the length of the remaining list. -/
def chunksOfGo (m : Nat) : Nat → List α → List (List α)
  | 0, _ => []
  | _ + 1, [] => []
  | fuel + 1, x :: xs =>
      ((x :: xs).take (m + 1)) :: chunksOfGo m fuel ((x :: xs).drop (m + 1))

/-- Consecutive groups of `m + 1` elements of a list; the last group may
be shorter. This is the `for (let i = 0; i < baseTokens.length; i += size)`
grouping loop of `tokenizeText` with `size = m + 1`. -/
def chunksOf (m : Nat) (l : List α) : List (List α) :=
  chunksOfGo m l.length l

/-- The tokenizer `tokenizeText(text, unit, chunkSize)` of
`src/app/page.tsx`: base-split according to `unit`, return `[]` for no
tokens, return the base tokens unchanged when the effective chunk size
`max(1, floor(chunkSize || 1))` is `1` and the unit is not the generic
`chunk` unit, and otherwise group base tokens into runs of the
effective size joined with `""` for `char` and `" "` otherwise. -/
def tokenizeText (text : List Char) (unit : TokenizationUnit) (chunkSize : Nat) :
    List (List Char) :=
  let size := max 1 chunkSize
  let base := baseTokens text unit
  if base.isEmpty then []
  else if size = 1 ∧ unit ≠ TokenizationUnit.chunk then base
  else (chunksOf (size - 1) base).map (fun g => List.intercalate (tokenJoiner unit) g)

/-- The JavaScript non-negative index normalization
`((startIndex % tokens.length) + tokens.length) % tokens.length`,
where `%` is JavaScript remainder (`Int.tmod`). -/
def jsSafeIndex (startIndex : Int) (len : Nat) : Nat :=
  (((startIndex.tmod len) + len).tmod len).toNat

/-- The display windower `getRsvpDisplayToken(tokens, startIndex,
viewportTokenCount, unit)`: `""` on an empty token list; otherwise the
token at the normalized start index when the window size is `1`, and
the join (with the unit joiner) of `size` consecutive tokens read
circularly from the normalized start index otherwise. -/
def getRsvpDisplayToken (tokens : List (List Char)) (startIndex : Int)
    (viewportTokenCount : Nat) (unit : TokenizationUnit) : List Char :=
  if tokens.isEmpty then []
  else
    let size := max 1 viewportTokenCount
    let safeStart := jsSafeIndex startIndex tokens.length
    if size = 1 then tokens.getD safeStart []
    else
      List.intercalate (tokenJoiner unit)
        ((List.range size).map (fun i => tokens.getD ((safeStart + i) % tokens.length) []))

/-- The advance-length helper `getAdvanceCharacterCount(tokens,
startIndex, advanceCount, unit)`: `1` on an empty token list, otherwise
the character length of the `size` tokens crossed from the normalized
start index (joined with the unit joiner), floored to `1`. -/
def getAdvanceCharacterCount (tokens : List (List Char)) (startIndex : Int)
    (advanceCount : Nat) (unit : TokenizationUnit) : Nat :=
  if tokens.isEmpty then 1
  else
    let size := max 1 advanceCount
    let safeStart := jsSafeIndex startIndex tokens.length
    let movedText :=
      List.intercalate (tokenJoiner unit)
        ((List.range size).map (fun i => tokens.getD ((safeStart + i) % tokens.length) []))
    max 1 movedText.length

/-- Characters of the class `[.,!?;:]` in `endsWithPausePunctuation`. -/
def isPausePunctuationChar (c : Char) : Bool :=
  c == '.' || c == ',' || c == '!' || c == '?' || c == ';' || c == ':'

/-- Characters of the class `["')\]]` in `endsWithPausePunctuation`. -/
def isClosingQuoteBracket (c : Char) : Bool :=
  c == '\x22' || c == '\x27' || c == ')' || c == ']'

/-- The pause detector `endsWithPausePunctuation(token)`: the regex test
`/[.,!?;:]["')\]]?$/.test(token.trim())` — after trimming, the token
ends with a pause character, optionally followed by one closing
quote/bracket. -/
def endsWithPausePunctuation (token : List Char) : Bool :=
  match (jsTrim token).reverse with
  | [] => false
  | c :: rest =>
      if isPausePunctuationChar c then true
      else if isClosingQuoteBracket c then
        match rest with
        | [] => false
        | c2 :: _ => isPausePunctuationChar c2
      else false

/-- JavaScript `Math.round`: half-up rounding, `⌊x + 1/2⌋`. -/
def jsRound (q : ℚ) : Int := Int.floor (q + 1 / 2)

/-- The helper `clamp(value, min, max) = Math.min(max, Math.max(min, value))`. -/
def clamp (value lo hi : ℚ) : ℚ := min hi (max lo value)

/-- Constant `SPEED_MIN_CPS` of `src/app/page.tsx`. -/
def SPEED_MIN_CPS : ℚ := 1

/-- Constant `SPEED_MAX_CPS` of `src/app/page.tsx`. -/
def SPEED_MAX_CPS : ℚ := 80

/-- Reader mode (`ConditionSpec["mode"]`): discrete/step progression is
`rsvp`, continuous pixel scroll is `continuous`. -/
inductive ReaderMode
  | rsvp
  | continuous
deriving DecidableEq

/-- Speed unit tag of `ConditionSpec["motion"]["speed"]["unit"]`. -/
inductive SpeedUnit
  | cps
  | pxps
deriving DecidableEq

/-- The base per-step delay of the timed `tick` loop:
`Math.max(20, Math.round((advancedCharCount * 1000) / Math.max(1, speedValue)))`. -/
def tickBaseDelayMs (speedValue : ℚ) (advancedCharCount : Nat) : Int :=
  max 20 (jsRound ((advancedCharCount * 1000 : ℚ) / max 1 speedValue))

/-- The extra punctuation delay of the timed `tick` loop:
`Math.max(0, delayMs)` when pause-at-punctuation is enabled, the landed
token passes `endsWithPausePunctuation` and the mode is `rsvp`; else `0`. -/
def tickExtraDelayMs (mode : ReaderMode) (pauseEnabled : Bool) (pauseDelayMs : ℚ)
    (landedToken : List Char) : ℚ :=
  if pauseEnabled = true ∧ endsWithPausePunctuation landedToken = true ∧
      mode = ReaderMode.rsvp then
    max 0 pauseDelayMs
  else 0

/-- The full delay armed for the next timed step:
`msPerToken + extraDelay` in the `tick` closure. -/
def tickTotalDelayMs (mode : ReaderMode) (pauseEnabled : Bool) (pauseDelayMs : ℚ)
    (speedValue : ℚ) (advancedCharCount : Nat) (landedToken : List Char) : ℚ :=
  (tickBaseDelayMs speedValue advancedCharCount : ℚ) +
    tickExtraDelayMs mode pauseEnabled pauseDelayMs landedToken

/-- One frame of `ContinuousRsvpRenderer`'s animation loop: add
`pxPerSecond * dt` to the offset and wrap to `0` when the result
exceeds the effective cycle length `Math.max(1, cycleLengthRef.current)`. -/
def continuousFrame (pxPerSecond cycleLengthRef : ℚ) (prev dt : ℚ) : ℚ :=
  let next := prev + pxPerSecond * dt
  let cycle := max 1 cycleLengthRef
  if next > cycle then 0 else next

/-- Rate-control state touched by the pointer handlers: the current
speed value with its unit, and `baseSpeedBeforeMouseRef.current`. -/
structure RateState where
  speed : ℚ
  unit : SpeedUnit
  base : Option ℚ
deriving DecidableEq

/-- The pointer-position-to-speed mapping inside
`handleViewportMouseMove`: `yNorm = clamp(raw, 0, 1)`, `mapped = 1 - yNorm`,
`nextCps = clamp(Math.round(SPEED_MIN_CPS + mapped * (SPEED_MAX_CPS -
SPEED_MIN_CPS)), SPEED_MIN_CPS, SPEED_MAX_CPS)`. -/
def mouseMappedCps (yNormRaw : ℚ) : ℚ :=
  let yNorm := clamp yNormRaw 0 1
  let mapped := 1 - yNorm
  clamp (jsRound (SPEED_MIN_CPS + mapped * (SPEED_MAX_CPS - SPEED_MIN_CPS)) : ℚ)
    SPEED_MIN_CPS SPEED_MAX_CPS

/-- The handler `handleViewportMouseMove` for one pointer sample with
normalized vertical position `yNormRaw` (the sample assumes a viewport
of positive height): a no-op unless rate control is enabled; otherwise
capture the current speed into the base ref if not yet captured, then
write the mapped speed with unit forced to `cps` — unless the mapped
value equals the current speed value, in which case the previous
configuration object is returned unchanged. -/
def handleViewportMouseMove (rateControlEnabled : Bool) (yNormRaw : ℚ)
    (st : RateState) : RateState :=
  if rateControlEnabled = false then st
  else
    let base := match st.base with
      | none => some st.speed
      | some b => some b
    let nextCps := mouseMappedCps yNormRaw
    if st.speed = nextCps then { st with base := base }
    else { speed := nextCps, unit := SpeedUnit.cps, base := base }

/-- The handler `handleViewportMouseLeave`: when `resetOnLeave` is set
and a base speed was captured, restore
`clamp(Math.round(base), SPEED_MIN_CPS, SPEED_MAX_CPS)` with unit `cps`;
in every case clear the captured base. -/
def handleViewportMouseLeave (resetOnLeave : Bool) (st : RateState) : RateState :=
  match resetOnLeave, st.base with
  | true, some b =>
      { speed := clamp (jsRound b : ℚ) SPEED_MIN_CPS SPEED_MAX_CPS
        unit := SpeedUnit.cps
        base := none }
  | true, none => { st with base := none }
  | false, _ => { st with base := none }

/-- Default `rateControl.minCps` of `conditionSpec` (`src/lib/condition-spec.ts`). -/
def defaultRateControlMinCps : ℚ := 8

/-- Default `rateControl.maxCps` of `conditionSpec`. -/
def defaultRateControlMaxCps : ℚ := 60

/-- JavaScript `Number(x) || fallback` for an optionally present numeric
field: a missing field gives `NaN`, and both `NaN` and `0` are falsy. -/
def jsNumberOr (v : Option ℚ) (fallback : ℚ) : ℚ :=
  match v with
  | none => fallback
  | some x => if x = 0 then fallback else x

/-- The `rateControl.minCps`/`maxCps` normalization of
`handleUploadSettingsFile`: each provided bound is defaulted and clamped
to `≥ 1`, then `normalizedMinCps = max(1, min(minCps, maxCps))` and
`normalizedMaxCps = max(normalizedMinCps, maxCps)`. -/
def importRateControlBounds (minIn maxIn : Option ℚ) : ℚ × ℚ :=
  let minCps := max 1 (jsNumberOr minIn defaultRateControlMinCps)
  let maxCps := max 1 (jsNumberOr maxIn defaultRateControlMaxCps)
  let normalizedMinCps := max 1 (min minCps maxCps)
  let normalizedMaxCps := max normalizedMinCps maxCps
  (normalizedMinCps, normalizedMaxCps)

/-- Evaluation helper for `jsRound` at concrete rationals. -/
theorem jsRound_eq {q : ℚ} {n : Int} (h1 : (n : ℚ) ≤ q + 1 / 2)
    (h2 : q + 1 / 2 < n + 1) : jsRound q = n :=
  Int.floor_eq_iff.mpr ⟨h1, h2⟩

example : jsRound (5 / 2) = 3 := jsRound_eq (by norm_num) (by norm_num)
example : jsRound 60 = 60 := jsRound_eq (by norm_num) (by norm_num)
example : importRateControlBounds (some 50) (some 10) = (10, 10) := by
  norm_num [importRateControlBounds, jsNumberOr, max_def, min_def,
    defaultRateControlMinCps, defaultRateControlMaxCps]
example : mouseMappedCps 0 = 80 := by
  norm_num [mouseMappedCps, clamp, SPEED_MIN_CPS, SPEED_MAX_CPS, max_def, min_def,
    jsRound_eq (q := 80) (n := 80) (by norm_num) (by norm_num)]
example : endsWithPausePunctuation [' ', 'a', ','] = true := by rfl
example : endsWithPausePunctuation ['a', '.', '\x22'] = true := by rfl
example : endsWithPausePunctuation ['a'] = false := by rfl
example :
    tokenizeText [' ', 'h', 'i', ' ', ' ', 'y', 'o', ' '] TokenizationUnit.word 1 =
      [['h', 'i'], ['y', 'o']] := by rfl
example :
    tokenizeText ['a', 'b', 'c', 'd', 'e', 'f'] TokenizationUnit.char 2 =
      [['a', 'b'], ['c', 'd'], ['e', 'f']] := by rfl
example :
    baseTokens ['H', 'i', '.', ' ', 'G', 'o', '!'] TokenizationUnit.sentence =
      [['H', 'i', '.'], ['G', 'o', '!']] := by rfl
example :
    getRsvpDisplayToken [['a'], ['b'], ['c']] 2 2 TokenizationUnit.word =
      ['c', ' ', 'a'] := by rfl
example : getAdvanceCharacterCount [['h', 'i'], ['y', 'o']] 0 2 TokenizationUnit.word = 5 := by
  rfl
example : tickBaseDelayMs 24 5 = 208 := by
  norm_num [tickBaseDelayMs, max_def,
    jsRound_eq (q := 625 / 3) (n := 208) (by norm_num) (by norm_num)]
example : continuousFrame 10 100 95 1 = 0 := by
  norm_num [continuousFrame, max_def]
example : continuousFrame 10 100 5 1 = 15 := by
  norm_num [continuousFrame, max_def]

/-- Bounds of `jsRound` from bounds of its argument. -/
theorem jsRound_bounds {x : ℚ} {a b : Int} (h1 : (a : ℚ) ≤ x) (h2 : x ≤ b) :
    a ≤ jsRound x ∧ jsRound x ≤ b := by
  constructor
  · exact Int.le_floor.mpr (by linarith)
  · have h3 : jsRound x < b + 1 := Int.floor_lt.mpr (by push_cast; linarith)
    omega

/-- The mapped speed of a pointer sample with already-normalized
position `p ∈ [0, 1]`: the rounded linear interpolation between the
global `SPEED_MIN_CPS` and `SPEED_MAX_CPS` constants, which already
lies in `[1, 80]` so the outer clamp is the identity. -/
theorem mouseMappedCps_eq {p : ℚ} (h0 : 0 ≤ p) (h1 : p ≤ 1) :
    mouseMappedCps p =
      (jsRound (SPEED_MIN_CPS + (1 - p) * (SPEED_MAX_CPS - SPEED_MIN_CPS)) : ℚ) ∧
    1 ≤ mouseMappedCps p ∧ mouseMappedCps p ≤ 80 := by
  have hc : clamp p 0 1 = p := by rw [clamp, max_eq_right h0, min_eq_right h1]
  have hx1 : (1 : ℚ) ≤ SPEED_MIN_CPS + (1 - p) * (SPEED_MAX_CPS - SPEED_MIN_CPS) := by
    simp only [SPEED_MIN_CPS, SPEED_MAX_CPS]
    nlinarith
  have hx2 : SPEED_MIN_CPS + (1 - p) * (SPEED_MAX_CPS - SPEED_MIN_CPS) ≤ (80 : ℚ) := by
    simp only [SPEED_MIN_CPS, SPEED_MAX_CPS]
    nlinarith
  have hb := jsRound_bounds (a := 1) (b := 80) (by exact_mod_cast hx1) (by exact_mod_cast hx2)
  have hb1 : (1 : ℚ) ≤ (jsRound (SPEED_MIN_CPS + (1 - p) * (SPEED_MAX_CPS - SPEED_MIN_CPS)) : ℚ) := by
    exact_mod_cast hb.1
  have hb2 : (jsRound (SPEED_MIN_CPS + (1 - p) * (SPEED_MAX_CPS - SPEED_MIN_CPS)) : ℚ) ≤ 80 := by
    exact_mod_cast hb.2
  have heq : mouseMappedCps p =
      (jsRound (SPEED_MIN_CPS + (1 - p) * (SPEED_MAX_CPS - SPEED_MIN_CPS)) : ℚ) := by
    simp only [mouseMappedCps]
    rw [hc]
    simp only [clamp]
    rw [max_eq_right (by simpa [SPEED_MIN_CPS] using hb1),
      min_eq_right (by simpa [SPEED_MAX_CPS] using hb2)]
  exact ⟨heq, heq ▸ hb1, heq ▸ hb2⟩

/-- The pointer sample at the very top of the viewport maps to the
maximal speed `80`. -/
theorem mouseMappedCps_zero : mouseMappedCps 0 = 80 := by
  have h := (mouseMappedCps_eq (p := 0) (by norm_num) (by norm_num)).1
  have harg : SPEED_MIN_CPS + (1 - (0 : ℚ)) * (SPEED_MAX_CPS - SPEED_MIN_CPS) = 80 := by
    norm_num [SPEED_MIN_CPS, SPEED_MAX_CPS]
  rw [h, harg, jsRound_eq (q := 80) (n := 80) (by norm_num) (by norm_num)]
  norm_num

/-- C1 counterexample: importing `rateControl` bounds `minCps = 50`,
`maxCps = 10` does not produce the swapped pair `(10, 50)`. -/
theorem c1_counterexample :
    ¬ importRateControlBounds (some 50) (some 10) = (10, 50) := by
  intro h
  have h2 := congrArg Prod.snd h
  norm_num [importRateControlBounds, jsNumberOr, max_def, min_def,
    defaultRateControlMinCps, defaultRateControlMaxCps] at h2

/-- C1 (amended): importing a settings document whose
`motion.rateControl` has `minCps = 50` and `maxCps = 10` yields
`minCps = 10` and `maxCps = 10`: the reconciliation takes
`minCps = max(1, min(50, 10)) = 10` and then only raises `maxCps` to
that reconciled minimum (`maxCps = max(10, 10) = 10`), so the two
bounds collapse rather than swap; in general the imported bounds always
satisfy `1 ≤ minCps ≤ maxCps`. -/
theorem c1_import_rate_control_bounds :
    importRateControlBounds (some 50) (some 10) = (10, 10) ∧
    (∀ a b : Option ℚ,
      1 ≤ (importRateControlBounds a b).1 ∧
      (importRateControlBounds a b).1 ≤ (importRateControlBounds a b).2) := by
  constructor
  · norm_num [importRateControlBounds, jsNumberOr, max_def, min_def,
      defaultRateControlMinCps, defaultRateControlMaxCps]
  · intro a b
    constructor
    · exact le_max_left _ _
    · exact le_max_left _ _

/-- Spec-side pointer-to-speed mapping, written exactly as the claim
states it: `speed = round(lerp(minCps, maxCps, invert ? 1 - p : p))`
clamped into the configured `[rateControl.minCps, rateControl.maxCps]`. -/
def specRateControlMappedSpeed (p rcMinCps rcMaxCps : ℚ) (invert : Bool) : ℚ :=
  clamp (jsRound (rcMinCps + (if invert then 1 - p else p) * (rcMaxCps - rcMinCps)) : ℚ)
    rcMinCps rcMaxCps

/-- C2 counterexample: with the default configured rate-control bounds
`minCps = 8`, `maxCps = 60` (and `invert = true`), a pointer sample at
normalized position `0` makes the code write speed `80`, while the
claimed mapping produces `60`. -/
theorem c2_counterexample :
    (handleViewportMouseMove true 0
        { speed := 24, unit := SpeedUnit.cps, base := none }).speed = 80 ∧
    specRateControlMappedSpeed 0 defaultRateControlMinCps defaultRateControlMaxCps true = 60 ∧
    (80 : ℚ) ≠ 60 := by
  refine ⟨?_, ?_, by norm_num⟩
  · have h24 : ¬ ((24 : ℚ) = mouseMappedCps 0) := by rw [mouseMappedCps_zero]; norm_num
    simp [handleViewportMouseMove, h24, mouseMappedCps_zero]
  · have harg : defaultRateControlMinCps +
        (if true then 1 - (0 : ℚ) else (0 : ℚ)) *
          (defaultRateControlMaxCps - defaultRateControlMinCps) = 60 := by
      norm_num [defaultRateControlMinCps, defaultRateControlMaxCps]
    rw [specRateControlMappedSpeed, harg,
      jsRound_eq (q := 60) (n := 60) (by norm_num) (by norm_num)]
    norm_num [clamp, max_def, min_def, defaultRateControlMinCps, defaultRateControlMaxCps]

/-- C2 (amended): for every pointer sample with normalized position
`p ∈ [0, 1]` taken while rate control is enabled, the speed written into
the configuration is `round(SPEED_MIN_CPS + (1 - p) * (SPEED_MAX_CPS -
SPEED_MIN_CPS))` — a lerp over the global constants `[1, 80]` with the
inversion applied unconditionally, not over the configured
`rateControl.minCps`/`maxCps` — which already lies in `[1, 80]` so the
clamp is the identity; the speed unit is forced to characters-per-second
whenever the stored speed value actually changes (when the mapped value
equals the current one the configuration object is left untouched). -/
theorem c2_mouse_move_speed_mapping (st : RateState) (p : ℚ) (h0 : 0 ≤ p) (h1 : p ≤ 1) :
    (handleViewportMouseMove true p st).speed =
      (jsRound (SPEED_MIN_CPS + (1 - p) * (SPEED_MAX_CPS - SPEED_MIN_CPS)) : ℚ) ∧
    1 ≤ (handleViewportMouseMove true p st).speed ∧
    (handleViewportMouseMove true p st).speed ≤ 80 ∧
    (st.speed ≠ (handleViewportMouseMove true p st).speed →
      (handleViewportMouseMove true p st).unit = SpeedUnit.cps) := by
  obtain ⟨heq, hlo, hhi⟩ := mouseMappedCps_eq h0 h1
  by_cases hs : st.speed = mouseMappedCps p
  · have hmove : handleViewportMouseMove true p st =
        { st with base := (match st.base with | none => some st.speed | some b => some b) } := by
      simp [handleViewportMouseMove, hs]
    rw [hmove]
    refine ⟨by simpa [hs] using heq, by simpa [hs] using hlo, by simpa [hs] using hhi, ?_⟩
    intro hne
    exact absurd rfl hne
  · have hmove : handleViewportMouseMove true p st =
        { speed := mouseMappedCps p, unit := SpeedUnit.cps,
          base := (match st.base with | none => some st.speed | some b => some b) } := by
      simp [handleViewportMouseMove, hs]
    rw [hmove]
    exact ⟨heq, hlo, hhi, fun _ => rfl⟩

/-- C2 witness: at `p = 0` the written speed is `round(1 + 79) = 80`. -/
theorem c2_witness :
    (0 : ℚ) ≤ 0 ∧ (0 : ℚ) ≤ 1 ∧
    ((handleViewportMouseMove true 0
        { speed := 24, unit := SpeedUnit.cps, base := none }).speed =
      (jsRound (SPEED_MIN_CPS + (1 - 0) * (SPEED_MAX_CPS - SPEED_MIN_CPS)) : ℚ) ∧
    1 ≤ (handleViewportMouseMove true 0
        { speed := 24, unit := SpeedUnit.cps, base := none }).speed ∧
    (handleViewportMouseMove true 0
        { speed := 24, unit := SpeedUnit.cps, base := none }).speed ≤ 80 ∧
    (({ speed := 24, unit := SpeedUnit.cps, base := none } : RateState).speed ≠
        (handleViewportMouseMove true 0
          { speed := 24, unit := SpeedUnit.cps, base := none }).speed →
      (handleViewportMouseMove true 0
        { speed := 24, unit := SpeedUnit.cps, base := none }).unit = SpeedUnit.cps)) :=
  ⟨le_refl 0, by norm_num,
    c2_mouse_move_speed_mapping
      { speed := 24, unit := SpeedUnit.cps, base := none } 0 (le_refl 0) (by norm_num)⟩

/-- The fold of `continuousFrame` over non-negative frame deltas keeps
the offset inside `[0, cycleLength]`. -/
theorem continuousFrame_foldl_bounds (pxps c : ℚ) (hp : 0 ≤ pxps) (hc : 1 ≤ c) :
    ∀ (dts : List ℚ) (o : ℚ), 0 ≤ o → o ≤ c → (∀ d ∈ dts, 0 ≤ d) →
      0 ≤ dts.foldl (continuousFrame pxps c) o ∧ dts.foldl (continuousFrame pxps c) o ≤ c := by
  intro dts
  induction dts with
  | nil => exact fun o ho1 ho2 _ => ⟨ho1, ho2⟩
  | cons d rest ih =>
      intro o ho1 ho2 hall
      have hd : 0 ≤ d := hall d (by simp)
      have hrest : ∀ x ∈ rest, 0 ≤ x := fun x hx => hall x (by simp [hx])
      have hmax : max 1 c = c := max_eq_right hc
      have hstep : 0 ≤ continuousFrame pxps c o d ∧ continuousFrame pxps c o d ≤ c := by
        simp only [continuousFrame, hmax]
        split
        · exact ⟨le_refl 0, by linarith⟩
        · next h =>
            push_neg at h
            exact ⟨add_nonneg ho1 (mul_nonneg hp hd), h⟩
      simpa using ih (continuousFrame pxps c o d) hstep.1 hstep.2 hrest

/-- C8: starting from offset `0`, for any non-negative frame deltas the
continuous animator keeps `0 ≤ offsetPx ≤ cycleLength`; a frame whose
candidate value `offsetPx + pxPerSecond * dt` does not exceed the cycle
length commits exactly that value, and a frame whose candidate value
would exceed it resets the offset to exactly `0`. -/
theorem c8_continuous_offset_invariant (pxps c : ℚ) (dts : List ℚ)
    (hp : 0 ≤ pxps) (hc : 1 ≤ c) (hdts : ∀ d ∈ dts, 0 ≤ d) :
    (0 ≤ dts.foldl (continuousFrame pxps c) 0 ∧
      dts.foldl (continuousFrame pxps c) 0 ≤ c) ∧
    (∀ prev dt : ℚ, prev + pxps * dt ≤ c →
      continuousFrame pxps c prev dt = prev + pxps * dt) ∧
    (∀ prev dt : ℚ, c < prev + pxps * dt →
      continuousFrame pxps c prev dt = 0) := by
  have hmax : max 1 c = c := max_eq_right hc
  refine ⟨continuousFrame_foldl_bounds pxps c hp hc dts 0 (le_refl 0) (by linarith) hdts,
    ?_, ?_⟩
  · intro prev dt h
    simp only [continuousFrame, hmax]
    rw [if_neg (not_lt.mpr h)]
  · intro prev dt h
    simp only [continuousFrame, hmax]
    rw [if_pos h]

/-- C8 witness: with `pxPerSecond = 10`, `cycleLength = 100` and frame
deltas `0, 5, 6` the offset stays in `[0, 100]` (it ends at `0`, the
third frame having wrapped past `100`). -/
theorem c8_witness :
    (0 : ℚ) ≤ 10 ∧ (1 : ℚ) ≤ 100 ∧ (∀ d ∈ [(0 : ℚ), 5, 6], 0 ≤ d) ∧
    ((0 ≤ [(0 : ℚ), 5, 6].foldl (continuousFrame 10 100) 0 ∧
      [(0 : ℚ), 5, 6].foldl (continuousFrame 10 100) 0 ≤ 100) ∧
    (∀ prev dt : ℚ, prev + 10 * dt ≤ 100 →
      continuousFrame 10 100 prev dt = prev + 10 * dt) ∧
    (∀ prev dt : ℚ, 100 < prev + 10 * dt →
      continuousFrame 10 100 prev dt = 0)) :=
  ⟨by norm_num, by norm_num, by norm_num,
    c8_continuous_offset_invariant 10 100 [0, 5, 6] (by norm_num) (by norm_num) (by norm_num)⟩

/-- A pointer-move sample never erases an already-captured base speed. -/
theorem mouseMove_base_preserved (q : ℚ) (st : RateState) (b : ℚ)
    (h : st.base = some b) : (handleViewportMouseMove true q st).base = some b := by
  simp only [handleViewportMouseMove]
  rw [if_neg (by simp)]
  split <;> simp [h]

/-- The first pointer-move sample captures the current speed. -/
theorem mouseMove_base_captured (q : ℚ) (st : RateState)
    (h : st.base = none) : (handleViewportMouseMove true q st).base = some st.speed := by
  simp only [handleViewportMouseMove]
  rw [if_neg (by simp)]
  split <;> simp [h]

/-- A fold of pointer-move samples never erases a captured base speed. -/
theorem mouseMove_foldl_base_preserved (ps : List ℚ) :
    ∀ (st : RateState) (b : ℚ), st.base = some b →
      (ps.foldl (fun s q => handleViewportMouseMove true q s) st).base = some b := by
  induction ps with
  | nil => exact fun st b h => h
  | cons q rest ih =>
      intro st b h
      simpa using ih (handleViewportMouseMove true q st) b (mouseMove_base_preserved q st b h)

/-- A pointer leave with `resetOnLeave` restores from the captured base,
whatever the rest of the state is. -/
theorem mouseLeave_of_base (st : RateState) (b : ℚ) (h : st.base = some b) :
    handleViewportMouseLeave true st =
      { speed := clamp (jsRound b : ℚ) SPEED_MIN_CPS SPEED_MAX_CPS,
        unit := SpeedUnit.cps, base := none } := by
  obtain ⟨sp, un, ba⟩ := st
  have hb : ba = some b := h
  subst hb
  rfl

/-- C9 (amended): with `resetOnLeave = true`, a session consisting of a
first pointer sample (capturing the then-current speed as the base),
any further pointer samples, and a pointer leave restores as active
speed the captured base value rounded to the nearest integer and
clamped into `[SPEED_MIN_CPS, SPEED_MAX_CPS]` — not the default and not
the last pointer-mapped value — and the captured base is cleared on
leave regardless of `resetOnLeave`. -/
theorem c9_rate_control_restore (s0 : ℚ) (u0 : SpeedUnit) (p : ℚ) (ps : List ℚ) :
    (handleViewportMouseLeave true
        (ps.foldl (fun s q => handleViewportMouseMove true q s)
          (handleViewportMouseMove true p { speed := s0, unit := u0, base := none }))).speed =
      clamp (jsRound s0 : ℚ) SPEED_MIN_CPS SPEED_MAX_CPS ∧
    (handleViewportMouseLeave true
        (ps.foldl (fun s q => handleViewportMouseMove true q s)
          (handleViewportMouseMove true p { speed := s0, unit := u0, base := none }))).base =
      none ∧
    (∀ (rl : Bool) (st : RateState), (handleViewportMouseLeave rl st).base = none) := by
  have h1 : (handleViewportMouseMove true p
      { speed := s0, unit := u0, base := none }).base = some s0 :=
    mouseMove_base_captured p _ rfl
  have h2 := mouseMove_foldl_base_preserved ps
    (handleViewportMouseMove true p { speed := s0, unit := u0, base := none }) s0 h1
  rw [mouseLeave_of_base _ s0 h2]
  refine ⟨rfl, rfl, ?_⟩
  intro rl st
  obtain ⟨sp, un, ba⟩ := st
  rcases rl with _ | _ <;> rcases ba with _ | b <;> rfl

/-- C9 counterexample: a captured base speed of `5/2` (reachable by
importing a fractional speed value) is restored as
`clamp(round(5/2), 1, 80) = 3`, which differs from the captured value
clamped into range (`5/2` itself), so the restore is not exact. -/
theorem c9_counterexample :
    (handleViewportMouseLeave true
        (handleViewportMouseMove true 0
          { speed := 5 / 2, unit := SpeedUnit.cps, base := none })).speed = 3 ∧
    clamp (5 / 2) SPEED_MIN_CPS SPEED_MAX_CPS = 5 / 2 ∧
    ((3 : ℚ) ≠ 5 / 2) := by
  have h1 : (handleViewportMouseMove true 0
      { speed := 5 / 2, unit := SpeedUnit.cps, base := none }).base = some (5 / 2) :=
    mouseMove_base_captured 0 _ rfl
  rw [mouseLeave_of_base _ (5 / 2) h1]
  refine ⟨?_, ?_, by norm_num⟩
  · show clamp (jsRound (5 / 2) : ℚ) SPEED_MIN_CPS SPEED_MAX_CPS = 3
    rw [jsRound_eq (q := 5 / 2) (n := 3) (by norm_num) (by norm_num)]
    norm_num [clamp, max_def, min_def, SPEED_MIN_CPS, SPEED_MAX_CPS]
  · norm_num [clamp, max_def, min_def, SPEED_MIN_CPS, SPEED_MAX_CPS]

/-- Declarative reading of "the trimmed token ends with a punctuation
character from `punct`, optionally followed by one closing
quote/bracket". -/
def EndsWithPunctCloser (punct : Char → Bool) (token : List Char) : Prop :=
  (∃ pre p, jsTrim token = pre ++ [p] ∧ punct p = true) ∨
  (∃ pre p c, jsTrim token = pre ++ [p, c] ∧ punct p = true ∧
    isClosingQuoteBracket c = true)

/-- The regex test of `endsWithPausePunctuation` recognises exactly the
tokens whose trimmed form ends with one of `. , ! ? ; :`, optionally
followed by one closing quote/bracket. -/
theorem endsWithPausePunctuation_iff (token : List Char) :
    endsWithPausePunctuation token = true ↔
      EndsWithPunctCloser isPausePunctuationChar token := by
  rcases hrev : (jsTrim token).reverse with _ | ⟨c, rest⟩
  · have hs : jsTrim token = [] := by simpa using congrArg List.reverse hrev
    apply iff_of_false
    · simp [endsWithPausePunctuation, hrev]
    · rintro (⟨pre, p, hs2, _⟩ | ⟨pre, p, c, hs2, _, _⟩) <;> rw [hs] at hs2 <;>
        simp at hs2
  · have hs : jsTrim token = rest.reverse ++ [c] := by
      simpa using congrArg List.reverse hrev
    by_cases hp : isPausePunctuationChar c = true
    · apply iff_of_true
      · simp [endsWithPausePunctuation, hrev, hp]
      · exact Or.inl ⟨rest.reverse, c, hs, hp⟩
    · by_cases hq : isClosingQuoteBracket c = true
      · rcases rest with _ | ⟨c2, rest2⟩
        · apply iff_of_false
          · simp [endsWithPausePunctuation, hrev, hp, hq]
          · rintro (⟨pre, p, hs2, hp2⟩ | ⟨pre, p, cc, hs2, hp2, hc2⟩)
            · have hrr : p :: pre.reverse = c :: ([] : List Char).reverse := by
                simpa using congrArg List.reverse (hs2.symm.trans hs)
              obtain ⟨hpc, -⟩ := List.cons.inj hrr
              rw [hpc] at hp2
              exact hp hp2
            · have hrr : cc :: p :: pre.reverse = ([c] : List Char) := by
                simpa using congrArg List.reverse (hs2.symm.trans hs)
              simp at hrr
        · have hs2 : jsTrim token = rest2.reverse ++ [c2, c] := by
            rw [hs]
            simp
          constructor
          · intro hlhs
            have hpc2 : isPausePunctuationChar c2 = true := by
              simpa [endsWithPausePunctuation, hrev, hp, hq] using hlhs
            exact Or.inr ⟨rest2.reverse, c2, c, hs2, hpc2, hq⟩
          · rintro (⟨pre, p, hs3, hp3⟩ | ⟨pre, p, cc, hs3, hp3, hc3⟩)
            · have hrr : p :: pre.reverse = c :: c2 :: rest2 := by
                have h4 := congrArg List.reverse (hs3.symm.trans hs2)
                simpa using h4
              obtain ⟨hpc, -⟩ := List.cons.inj hrr
              rw [hpc] at hp3
              exact absurd hp3 hp
            · have hrr : cc :: p :: pre.reverse = c :: c2 :: rest2 := by
                have h4 := congrArg List.reverse (hs3.symm.trans hs2)
                simpa using h4
              obtain ⟨-, hrr2⟩ := List.cons.inj hrr
              obtain ⟨hpc2, -⟩ := List.cons.inj hrr2
              rw [hpc2] at hp3
              simp [endsWithPausePunctuation, hrev, hp, hq, hp3]
      · apply iff_of_false
        · simp [endsWithPausePunctuation, hrev, hp, hq]
        · rintro (⟨pre, p, hs2, hp2⟩ | ⟨pre, p, cc, hs2, hp2, hc2⟩)
          · have hrr : p :: pre.reverse = c :: rest := by
              simpa using congrArg List.reverse (hs2.symm.trans hs)
            obtain ⟨hpc, -⟩ := List.cons.inj hrr
            rw [hpc] at hp2
            exact hp hp2
          · have hrr : cc :: p :: pre.reverse = c :: rest := by
              simpa using congrArg List.reverse (hs2.symm.trans hs)
            obtain ⟨hcc, -⟩ := List.cons.inj hrr
            rw [hcc] at hc2
            exact hq hc2

/-- C3 (amended): the extra pause `delayMs` is appended to a timed
step's delay exactly when pause-at-punctuation is enabled, the mode is
discrete (`rsvp`), and the trimmed landed token ends with one of the
characters `. , ! ? ; :` (not only the sentence-terminal `. ! ?`),
optionally followed by one closing quote/bracket; it is never appended
in continuous mode. -/
theorem c3_punctuation_pause_delay (mode : ReaderMode) (pe : Bool) (pd : ℚ)
    (token : List Char) :
    (endsWithPausePunctuation token = true ↔
      EndsWithPunctCloser isPausePunctuationChar token) ∧
    (mode = ReaderMode.continuous → tickExtraDelayMs mode pe pd token = 0) ∧
    (pe = true → mode = ReaderMode.rsvp →
      EndsWithPunctCloser isPausePunctuationChar token →
      tickExtraDelayMs mode pe pd token = max 0 pd) ∧
    (¬ EndsWithPunctCloser isPausePunctuationChar token →
      tickExtraDelayMs mode pe pd token = 0) := by
  refine ⟨endsWithPausePunctuation_iff token, ?_, ?_, ?_⟩
  · intro hm
    subst hm
    simp [tickExtraDelayMs]
  · intro hpe hm hpred
    have hb : endsWithPausePunctuation token = true :=
      (endsWithPausePunctuation_iff token).mpr hpred
    subst hm
    simp [tickExtraDelayMs, hpe, hb]
  · intro hnpred
    have hb : endsWithPausePunctuation token = false := by
      rcases h : endsWithPausePunctuation token with _ | _
      · rfl
      · exact absurd ((endsWithPausePunctuation_iff token).mp h) hnpred
    simp [tickExtraDelayMs, hb]

/-- C3 witness: in `rsvp` mode with pause enabled and `delayMs = 250`,
the token `"Go."` triggers the extra delay. -/
theorem c3_witness :
    tickExtraDelayMs ReaderMode.rsvp true 250 ['G', 'o', '.'] = max 0 250 :=
  (c3_punctuation_pause_delay ReaderMode.rsvp true 250 ['G', 'o', '.']).2.2.1 rfl rfl
    (Or.inl ⟨['G', 'o'], '.', rfl, rfl⟩)

/-- C3 counterexample: the token `"a,"` does not end with
sentence-terminal punctuation (`. ! ?` optionally followed by one
closer), yet the code appends the full extra delay for it in `rsvp`
mode, so "if and only if sentence-terminal" is false. -/
theorem c3_counterexample :
    tickExtraDelayMs ReaderMode.rsvp true 250 ['a', ','] = 250 ∧
    ¬ EndsWithPunctCloser isSentenceTerminal ['a', ','] := by
  constructor
  · have hb : endsWithPausePunctuation ['a', ','] = true := rfl
    norm_num [tickExtraDelayMs, hb, max_def]
  · have hs : jsTrim ['a', ','] = ['a', ','] := rfl
    rintro (⟨pre, p, hs2, hp2⟩ | ⟨pre, p, cc, hs2, hp2, hc2⟩)
    · have hrr : p :: pre.reverse = [',', 'a'] := by
        simpa using congrArg List.reverse (hs2.symm.trans hs)
      obtain ⟨hpc, -⟩ := List.cons.inj hrr
      rw [hpc] at hp2
      exact absurd hp2 (by decide)
    · have hrr : cc :: p :: pre.reverse = [',', 'a'] := by
        simpa using congrArg List.reverse (hs2.symm.trans hs)
      obtain ⟨-, hrr2⟩ := List.cons.inj hrr
      have hpa : p = 'a' := by
        have hlen := congrArg List.length hrr2
        simp at hlen
        rcases List.reverse_eq_nil_iff.mp (by simpa using hlen) with h
        obtain ⟨hpc2, -⟩ := List.cons.inj hrr2
        exact hpc2
      rw [hpa] at hp2
      exact absurd hp2 (by decide)

/-- Joining a single token inserts no separator. -/
theorem intercalate_single (s a : List α) : List.intercalate s [a] = a := by
  simp [List.intercalate]

/-- Joining two tokens inserts the separator once. -/
theorem intercalate_two (s a b : List α) :
    List.intercalate s [a, b] = a ++ s ++ b := by
  simp [List.intercalate, List.intersperse]

/-- Unfolding one joined token from a list of at least two. -/
theorem intercalate_cons_cons (s a b : List α) (t : List (List α)) :
    List.intercalate s (a :: b :: t) = a ++ s ++ List.intercalate s (b :: t) := by
  simp [List.intercalate, List.intersperse]

/-- A character prepended to the first token passes through the join. -/
theorem intercalate_cons_head (s : List α) (x : α) (w : List α) (rs : List (List α)) :
    List.intercalate s ((x :: w) :: rs) = x :: List.intercalate s (w :: rs) := by
  cases rs with
  | nil => rw [intercalate_single, intercalate_single]
  | cons r rs' =>
      rw [intercalate_cons_cons, intercalate_cons_cons]
      simp [List.append_assoc]

/-- The truncating remainder is congruent to the dividend. -/
theorem tmod_emod (a n : Int) : (a.tmod n) % n = a % n := by
  rw [Int.tmod_def, Int.sub_eq_add_neg, ← Int.mul_neg]
  exact Int.add_mul_emod_self_left a n (-(a.tdiv n))

/-- Lower bound of the truncating remainder by a positive modulus. -/
theorem tmod_lower (a : Int) (n : Nat) (hn : 0 < n) : -(n : Int) < a.tmod n := by
  rcases a with m | m
  · calc -(n : Int) < 0 := by omega
      _ ≤ (Int.ofNat m).tmod n := Int.tmod_nonneg _ (Int.ofNat_nonneg m)
  · have h1 : (Int.negSucc m).tmod n = -(((m + 1) % n : Nat) : Int) := rfl
    have h2 : (m + 1) % n < n := Nat.mod_lt _ hn
    rw [h1]
    omega

/-- The JavaScript double-remainder normalization
`((a % n) + n) % n` (with truncating `%`) is the floor remainder. -/
theorem jsSafeIndex_eq_emod (a : Int) (len : Nat) (h : 0 < len) :
    jsSafeIndex a len = (a % (len : Int)).toNat := by
  have hlow := tmod_lower a len h
  have hup := Int.tmod_lt_of_pos a (b := (len : Int)) (by exact_mod_cast h)
  have h0 : 0 ≤ a.tmod len + len := by omega
  have hkey : ((a.tmod len) + len).tmod len = a % len := by
    rw [Int.tmod_eq_emod h0 (by omega)]
    have h1 : (a.tmod len + (len : Int)) % len = (a.tmod len) % len := by
      conv_lhs => rw [show a.tmod len + (len : Int) = a.tmod len + (len : Int) * 1 by ring]
      exact Int.add_mul_emod_self_left (a.tmod len) len 1
    rw [h1, tmod_emod]
  rw [jsSafeIndex, hkey]

/-- The normalized start index is a valid position. -/
theorem jsSafeIndex_lt (a : Int) (len : Nat) (h : 0 < len) :
    jsSafeIndex a len < len := by
  rw [jsSafeIndex_eq_emod a len h]
  have h1 : 0 ≤ a % (len : Int) := Int.emod_nonneg _ (by omega)
  have h2 : a % (len : Int) < len := Int.emod_lt_of_pos _ (by exact_mod_cast h)
  omega

/-- Stepping `k` tokens from the normalized start, wrapping with the
natural-number remainder, lands on the floor remainder of `a + k`. -/
theorem index_shift (a : Int) (k len : Nat) (hlen : 0 < len) :
    ((jsSafeIndex a len + k) % len : Nat) = ((a + k) % (len : Int)).toNat := by
  have hs : ((jsSafeIndex a len : Nat) : Int) = a % (len : Int) := by
    rw [jsSafeIndex_eq_emod a len hlen]
    exact Int.toNat_of_nonneg (Int.emod_nonneg _ (by omega))
  have h1 : (((jsSafeIndex a len + k) % len : Nat) : Int) =
      (((jsSafeIndex a len : Nat) : Int) + k) % (len : Int) := by
    push_cast
    rfl
  have h2 : (((jsSafeIndex a len : Nat) : Int) + k) % (len : Int) =
      (a + k) % (len : Int) := by
    rw [hs]
    conv_lhs => rw [Int.add_emod]
    conv_rhs => rw [Int.add_emod]
    rw [Int.emod_emod]
  have h3 : 0 ≤ (a + k) % (len : Int) := Int.emod_nonneg _ (by omega)
  omega

/-- The windower in "code form": for a non-empty token list the result
is always the join of the `max 1 w` tokens read circularly from the
normalized start (the `size == 1` shortcut returns the same value). -/
theorem getRsvpDisplayToken_join (tokens : List (List Char)) (i : Int) (w : Nat)
    (u : TokenizationUnit) (hne : tokens ≠ []) :
    getRsvpDisplayToken tokens i w u =
      List.intercalate (tokenJoiner u)
        ((List.range (max 1 w)).map (fun k =>
          tokens.getD ((jsSafeIndex i tokens.length + k) % tokens.length) [])) := by
  have hlen : 0 < tokens.length := List.length_pos.mpr hne
  have hempty : tokens.isEmpty = false := by
    cases tokens with
    | nil => exact absurd rfl hne
    | cons x xs => rfl
  simp only [getRsvpDisplayToken, hempty, Bool.false_eq_true, if_false]
  by_cases hz : max 1 w = 1
  · simp only [hz, if_true]
    have hr1 : List.range 1 = [0] := rfl
    simp only [hr1, List.map_cons, List.map_nil, intercalate_single]
    rw [Nat.add_zero, Nat.mod_eq_of_lt (jsSafeIndex_lt i tokens.length hlen)]
  · rw [if_neg hz]

/-- The windower in "claim form": the join of `tokens[(i+k) mod len]`
for `k < w`, with the floor remainder. -/
theorem getRsvpDisplayToken_eq (tokens : List (List Char)) (i : Int) (w : Nat)
    (u : TokenizationUnit) (hne : tokens ≠ []) (hw : 1 ≤ w) :
    getRsvpDisplayToken tokens i w u =
      List.intercalate (tokenJoiner u)
        ((List.range w).map (fun k : Nat =>
          tokens.getD ((i + (k : Int)) % (tokens.length : Int)).toNat [])) := by
  have hlen : 0 < tokens.length := List.length_pos.mpr hne
  rw [getRsvpDisplayToken_join tokens i w u hne, max_eq_right hw]
  congr 1
  apply List.map_congr_left
  intro k _
  rw [index_shift i k tokens.length hlen]

/-- C7: for a non-empty token list and window size `w ≥ 1` the display
window is the join of `tokens[(i+k) mod len]` for `k = 0 .. w-1` with
the unit joiner; in particular `w = 1` returns exactly
`tokens[i mod len]`, the window at `(len-1, 2)` wraps and has
`tokens[0]` as its second element, and the empty token list gives `""`. -/
theorem c7_display_window (tokens : List (List Char)) (i : Int) (w : Nat)
    (u : TokenizationUnit) (hne : tokens ≠ []) (hw : 1 ≤ w) :
    getRsvpDisplayToken tokens i w u =
      List.intercalate (tokenJoiner u)
        ((List.range w).map (fun k : Nat =>
          tokens.getD ((i + (k : Int)) % (tokens.length : Int)).toNat [])) ∧
    getRsvpDisplayToken tokens i 1 u =
      tokens.getD ((i % (tokens.length : Int)).toNat) [] ∧
    getRsvpDisplayToken tokens ((tokens.length : Int) - 1) 2 TokenizationUnit.word =
      tokens.getD (tokens.length - 1) [] ++ ' ' :: tokens.getD 0 [] ∧
    getRsvpDisplayToken [] i w u = [] := by
  have hlen : 0 < tokens.length := List.length_pos.mpr hne
  refine ⟨getRsvpDisplayToken_eq tokens i w u hne hw, ?_, ?_, rfl⟩
  · rw [getRsvpDisplayToken_eq tokens i 1 u hne (le_refl 1)]
    have hr1 : List.range 1 = [0] := rfl
    simp only [hr1, List.map_cons, List.map_nil, intercalate_single]
    norm_num
  · rw [getRsvpDisplayToken_eq tokens ((tokens.length : Int) - 1) 2
      TokenizationUnit.word hne (by norm_num)]
    have hr : List.range 2 = [0, 1] := rfl
    rw [hr]
    simp only [List.map_cons, List.map_nil]
    have hX : (((tokens.length : Int) - 1 + ((0 : Nat) : Int)) % (tokens.length : Int)).toNat =
        tokens.length - 1 := by
      rw [show ((tokens.length : Int) - 1 + ((0 : Nat) : Int)) = (tokens.length : Int) - 1 by
        push_cast; ring]
      rw [Int.emod_eq_of_lt (by omega) (by omega)]
      omega
    have hY : (((tokens.length : Int) - 1 + ((1 : Nat) : Int)) % (tokens.length : Int)).toNat =
        0 := by
      rw [show ((tokens.length : Int) - 1 + ((1 : Nat) : Int)) = (tokens.length : Int) by
        push_cast; ring]
      rw [Int.emod_self]
      rfl
    rw [hX, hY, intercalate_two]
    have hj : tokenJoiner TokenizationUnit.word = [' '] := rfl
    rw [hj, List.append_assoc, List.singleton_append]

/-- C7 witness: the window properties evaluated on the two-token list
`["a", "b"]` at start index `3` and window size `2`. -/
theorem c7_witness :
    ([['a'], ['b']] : List (List Char)) ≠ [] ∧ (1 : Nat) ≤ 2 ∧
    (getRsvpDisplayToken [['a'], ['b']] 3 2 TokenizationUnit.word =
        List.intercalate (tokenJoiner TokenizationUnit.word)
          ((List.range 2).map (fun k : Nat =>
            ([['a'], ['b']] : List (List Char)).getD
              (((3 : Int) + (k : Int)) %
                ((([['a'], ['b']] : List (List Char)).length : Int))).toNat [])) ∧
      getRsvpDisplayToken [['a'], ['b']] 3 1 TokenizationUnit.word =
        ([['a'], ['b']] : List (List Char)).getD
          (((3 : Int) % ((([['a'], ['b']] : List (List Char)).length : Int))).toNat) [] ∧
      getRsvpDisplayToken [['a'], ['b']]
          (((([['a'], ['b']] : List (List Char)).length : Int)) - 1) 2 TokenizationUnit.word =
        ([['a'], ['b']] : List (List Char)).getD
            (([['a'], ['b']] : List (List Char)).length - 1) [] ++
          ' ' :: ([['a'], ['b']] : List (List Char)).getD 0 [] ∧
      getRsvpDisplayToken [] 3 2 TokenizationUnit.word = []) :=
  ⟨by simp, by norm_num,
    c7_display_window [['a'], ['b']] 3 2 TokenizationUnit.word (by simp) (by norm_num)⟩

/-- The characters actually crossed by a step are the characters of the
displayed window of the same size, floored to one. -/
theorem getAdvanceCharacterCount_eq (tokens : List (List Char)) (i : Int) (n : Nat)
    (u : TokenizationUnit) (hne : tokens ≠ []) :
    getAdvanceCharacterCount tokens i n u =
      max 1 (getRsvpDisplayToken tokens i n u).length := by
  have hempty : tokens.isEmpty = false := by
    cases tokens with
    | nil => exact absurd rfl hne
    | cons x xs => rfl
  rw [getRsvpDisplayToken_join tokens i n u hne]
  simp only [getAdvanceCharacterCount, hempty, Bool.false_eq_true, if_false]

/-- C4: for every timed step, the base delay is
`max(20, round(advancedCharCount * 1000 / speedCps))`, where
`advancedCharCount` is the character length of the tokens actually
crossed (the displayed window of the same size), floored to `1`; in
particular the delay is never below the 20 ms floor. -/
theorem c4_step_delay_floor (tokens : List (List Char)) (i : Int) (n : Nat)
    (u : TokenizationUnit) (speed : ℚ) (hne : tokens ≠ []) (hs : 1 ≤ speed) :
    tickBaseDelayMs speed (getAdvanceCharacterCount tokens i n u) =
      max 20 (jsRound (((getAdvanceCharacterCount tokens i n u : ℚ) * 1000) / speed)) ∧
    getAdvanceCharacterCount tokens i n u =
      max 1 (getRsvpDisplayToken tokens i n u).length ∧
    20 ≤ tickBaseDelayMs speed (getAdvanceCharacterCount tokens i n u) := by
  refine ⟨?_, getAdvanceCharacterCount_eq tokens i n u hne, le_max_left _ _⟩
  simp only [tickBaseDelayMs, max_eq_right hs]

/-- C4 witness: one step over the single token `"hi"` at 2 cps takes
`max(20, round(2 * 1000 / 2)) = 1000` ms, well above the 20 ms floor. -/
theorem c4_witness :
    ([['h', 'i']] : List (List Char)) ≠ [] ∧ (1 : ℚ) ≤ 2 ∧
    (tickBaseDelayMs 2 (getAdvanceCharacterCount [['h', 'i']] 0 1 TokenizationUnit.word) =
        max 20 (jsRound
          (((getAdvanceCharacterCount [['h', 'i']] 0 1 TokenizationUnit.word : ℚ) * 1000) / 2)) ∧
      getAdvanceCharacterCount [['h', 'i']] 0 1 TokenizationUnit.word =
        max 1 (getRsvpDisplayToken [['h', 'i']] 0 1 TokenizationUnit.word).length ∧
      20 ≤ tickBaseDelayMs 2
        (getAdvanceCharacterCount [['h', 'i']] 0 1 TokenizationUnit.word)) :=
  ⟨by simp, by norm_num,
    c4_step_delay_floor [['h', 'i']] 0 1 TokenizationUnit.word 2 (by simp) (by norm_num)⟩

/-- Number of groups produced by the grouping loop: the ceiling
`⌈length / (m+1)⌉` written as `(length + m) / (m + 1)`. -/
theorem chunksOfGo_length (m : Nat) :
    ∀ (fuel : Nat) (l : List α), l.length ≤ fuel →
      (chunksOfGo m fuel l).length = (l.length + m) / (m + 1) := by
  intro fuel
  induction fuel with
  | zero =>
      intro l hl
      have hnil : l = [] := List.length_eq_zero.mp (Nat.le_zero.mp hl)
      subst hnil
      simp [chunksOfGo, Nat.div_eq_of_lt (by omega : m < m + 1)]
  | succ fuel ih =>
      intro l hl
      cases l with
      | nil => simp [chunksOfGo, Nat.div_eq_of_lt (by omega : m < m + 1)]
      | cons x xs =>
          have hdrop : (List.drop m xs).length ≤ fuel := by
            simp only [List.length_drop]
            simp only [List.length_cons] at hl
            omega
          simp only [chunksOfGo, List.length_cons, List.drop_succ_cons]
          rw [ih _ hdrop]
          simp only [List.length_drop]
          have h1 : xs.length + 1 + m = xs.length + (m + 1) := by omega
          rw [h1, Nat.add_div_right _ (Nat.succ_pos m)]
          rcases Nat.le_total m xs.length with hm | hm
          · rw [Nat.sub_add_cancel hm]
          · have h2 : xs.length - m = 0 := by omega
            rw [h2, Nat.zero_add, Nat.div_eq_of_lt (by omega : m < m + 1),
              Nat.div_eq_of_lt (by omega : xs.length < m + 1)]

/-- The `i`-th group is the `i`-th slice of `m + 1` consecutive
elements. -/
theorem chunksOfGo_getD (m : Nat) :
    ∀ (fuel : Nat) (l : List (List Char)) (i : Nat), l.length ≤ fuel →
      (chunksOfGo m fuel l).getD i [] = (l.drop (i * (m + 1))).take (m + 1) := by
  intro fuel
  induction fuel with
  | zero =>
      intro l i hl
      have hnil : l = [] := List.length_eq_zero.mp (Nat.le_zero.mp hl)
      subst hnil
      simp [chunksOfGo]
  | succ fuel ih =>
      intro l i hl
      cases l with
      | nil => simp [chunksOfGo]
      | cons x xs =>
          have hdrop : ((x :: xs).drop (m + 1)).length ≤ fuel := by
            simp only [List.drop_succ_cons, List.length_drop]
            simp only [List.length_cons] at hl
            omega
          cases i with
          | zero => simp [chunksOfGo]
          | succ i =>
              simp only [chunksOfGo, List.getD_cons_succ, ih _ i hdrop, List.drop_drop]
              have h1 : m + 1 + i * (m + 1) = (i + 1) * (m + 1) := by ring
              rw [h1]

/-- De-joining all groups in order reproduces the base sequence. -/
theorem chunksOfGo_flatten (m : Nat) :
    ∀ (fuel : Nat) (l : List α), l.length ≤ fuel →
      (chunksOfGo m fuel l).flatten = l := by
  intro fuel
  induction fuel with
  | zero =>
      intro l hl
      have hnil : l = [] := List.length_eq_zero.mp (Nat.le_zero.mp hl)
      subst hnil
      rfl
  | succ fuel ih =>
      intro l hl
      cases l with
      | nil => rfl
      | cons x xs =>
          have hdrop : ((x :: xs).drop (m + 1)).length ≤ fuel := by
            simp only [List.drop_succ_cons, List.length_drop]
            simp only [List.length_cons] at hl
            omega
          simp only [chunksOfGo, List.flatten_cons, ih _ hdrop, List.take_append_drop]

/-- Grouping with size `1` leaves every base token unchanged. -/
theorem chunksOfGo_zero_map_intercalate (s : List Char) :
    ∀ (fuel : Nat) (l : List (List Char)), l.length ≤ fuel →
      (chunksOfGo 0 fuel l).map (List.intercalate s) = l := by
  intro fuel
  induction fuel with
  | zero =>
      intro l hl
      have hnil : l = [] := List.length_eq_zero.mp (Nat.le_zero.mp hl)
      subst hnil
      rfl
  | succ fuel ih =>
      intro l hl
      cases l with
      | nil => rfl
      | cons x xs =>
          have hdrop : xs.length ≤ fuel := by
            simp only [List.length_cons] at hl
            omega
          simp only [chunksOfGo, List.map_cons]
          rw [show (x :: xs).take (0 + 1) = [x] from rfl, intercalate_single,
            show (x :: xs).drop (0 + 1) = xs from rfl, ih xs hdrop]

/-- Joining a `take 1` slice recovers the element at that position,
with the empty string as the out-of-range default. -/
theorem intercalate_take_one_drop (s : List Char) (l : List (List Char)) (i : Nat) :
    List.intercalate s ((l.drop i).take 1) = l.getD i [] := by
  rcases Nat.lt_or_ge i l.length with h | h
  · rw [List.drop_eq_getElem_cons h,
      show ∀ (a : List Char) (r : List (List Char)), (a :: r).take 1 = [a] from
        fun a r => rfl,
      intercalate_single, List.getD_eq_getElem _ _ h]
  · rw [List.drop_eq_nil_of_le h, List.getD_eq_default _ _ h]
    rfl

/-- Mapping the join over groups commutes with indexing, with the empty
string as the out-of-range default. -/
theorem map_intercalate_getD (s : List Char) (L : List (List (List Char))) (i : Nat) :
    (L.map (List.intercalate s)).getD i [] = List.intercalate s (L.getD i []) := by
  simp only [List.getD_eq_getElem?_getD, List.getElem?_map]
  cases h : L[i]? with
  | none => rfl
  | some g => rfl

/-- C6: for every text, unit and chunk size `n ≥ 1`, the tokenizer
produces `⌈baseTokenCount / n⌉` groups, the `i`-th group is the join
(with the unit joiner) of the base tokens `i*n .. min((i+1)*n, count)-1`
(the final group possibly shorter), and flattening the underlying groups
reproduces the base token sequence. -/
theorem c6_grouping_consistency (text : List Char) (u : TokenizationUnit) (n : Nat)
    (hn : 1 ≤ n) :
    (tokenizeText text u n).length = ((baseTokens text u).length + n - 1) / n ∧
    (∀ i : Nat, (tokenizeText text u n).getD i [] =
      List.intercalate (tokenJoiner u) (((baseTokens text u).drop (i * n)).take n)) ∧
    (chunksOf (n - 1) (baseTokens text u)).flatten = baseTokens text u := by
  have hn1 : n - 1 + 1 = n := by omega
  have hflat : (chunksOf (n - 1) (baseTokens text u)).flatten = baseTokens text u :=
    chunksOfGo_flatten (n - 1) _ _ (le_refl _)
  have hceil : ((baseTokens text u).length + (n - 1)) / ((n - 1) + 1) =
      ((baseTokens text u).length + n - 1) / n := by
    rw [hn1]
    congr 1
    omega
  refine ⟨?_, ?_, hflat⟩ <;>
    simp only [tokenizeText, max_eq_right hn] <;>
    rcases hb : (baseTokens text u).isEmpty with _ | _
  · -- length, base non-empty
    rw [if_neg (by simp [hb])]
    by_cases hcond : n = 1 ∧ u ≠ TokenizationUnit.chunk
    · rw [if_pos hcond, hcond.1]
      simp [Nat.div_one]
    · rw [if_neg hcond, List.length_map]
      rw [chunksOf, chunksOfGo_length (n - 1) _ _ (le_refl _), hn1]
      congr 1
      omega
  · -- length, base empty
    have hbase : baseTokens text u = [] := List.isEmpty_iff.mp hb
    rw [if_pos (by simp [hb])]
    rw [hbase]
    simp [Nat.div_eq_of_lt (by omega : n - 1 < n)]
  · -- elementwise, base non-empty
    rw [if_neg (by simp [hb])]
    intro i
    by_cases hcond : n = 1 ∧ u ≠ TokenizationUnit.chunk
    · rw [if_pos hcond, hcond.1]
      rw [Nat.mul_one, intercalate_take_one_drop]
    · rw [if_neg hcond]
      rw [chunksOf, map_intercalate_getD, chunksOfGo_getD (n - 1) _ _ i (le_refl _), hn1]
  · -- elementwise, base empty
    have hbase : baseTokens text u = [] := List.isEmpty_iff.mp hb
    rw [if_pos (by simp [hb])]
    intro i
    rw [hbase]
    simp only [List.drop_nil, List.take_nil, List.getD_eq_getElem?_getD,
      List.getElem?_nil, Option.getD_none]
    rfl

/-- C6 witness: the word tokens of `"a bc d"` grouped in pairs. -/
theorem c6_witness :
    (1 : Nat) ≤ 2 ∧
    ((tokenizeText ['a', ' ', 'b', 'c', ' ', 'd'] TokenizationUnit.word 2).length =
        ((baseTokens ['a', ' ', 'b', 'c', ' ', 'd'] TokenizationUnit.word).length + 2 - 1) / 2 ∧
      (∀ i : Nat,
        (tokenizeText ['a', ' ', 'b', 'c', ' ', 'd'] TokenizationUnit.word 2).getD i [] =
          List.intercalate (tokenJoiner TokenizationUnit.word)
            (((baseTokens ['a', ' ', 'b', 'c', ' ', 'd'] TokenizationUnit.word).drop
              (i * 2)).take 2)) ∧
      (chunksOf (2 - 1)
          (baseTokens ['a', ' ', 'b', 'c', ' ', 'd'] TokenizationUnit.word)).flatten =
        baseTokens ['a', ' ', 'b', 'c', ' ', 'd'] TokenizationUnit.word) :=
  ⟨by norm_num,
    c6_grouping_consistency ['a', ' ', 'b', 'c', ' ', 'd'] TokenizationUnit.word 2
      (by norm_num)⟩

/-- C10: tokenizing with the generic `chunk` unit at chunk size `1` is
extensionally identical to `word` tokenization: the base split is the
same whitespace-run split, and although `chunk` always takes the
grouping path, grouping with size `1` joins each singleton group back
to its base token. -/
theorem c10_chunk_one_eq_word (text : List Char) :
    tokenizeText text TokenizationUnit.chunk 1 = tokenizeText text TokenizationUnit.word 1 := by
  have hbase : baseTokens text TokenizationUnit.chunk =
      baseTokens text TokenizationUnit.word := rfl
  simp only [tokenizeText, hbase]
  rcases hb : (baseTokens text TokenizationUnit.word).isEmpty with _ | _
  · rw [if_neg (by simp [hb]), if_neg (by simp [hb])]
    rw [if_neg (by simp), if_pos ⟨rfl, by decide⟩]
    exact chunksOfGo_zero_map_intercalate _ _ _ (le_refl _)
  · rw [if_pos (by simp [hb]), if_pos (by simp [hb])]

/-- Modelled from the claim's words: worker collapsing every maximal
run of whitespace to a single space character, with the same fuel
discipline as `splitWhitespaceRunsGo`. -/
def collapseWhitespaceRunsGo : Nat → List Char → List Char
  | 0, _ => []
  | _ + 1, [] => []
  | fuel + 1, c :: cs =>
      if isJsWhitespace c then
        ' ' :: collapseWhitespaceRunsGo fuel (cs.dropWhile isJsWhitespace)
      else c :: collapseWhitespaceRunsGo fuel cs

/-- Modelled from the claim's words: every run of whitespace collapsed
to one space. -/
def collapseWhitespaceRuns (cs : List Char) : List Char :=
  collapseWhitespaceRunsGo cs.length cs

/-- Modelled from the claim's words: the whitespace-normalized input —
the text trimmed at both ends with every run of whitespace collapsed to
one space. -/
def normalizeWhitespace (text : List Char) : List Char :=
  collapseWhitespaceRuns (jsTrim text)

/-- The split worker's result does not depend on the fuel once it
bounds the string length. -/
theorem splitGo_fuel (f1 : Nat) :
    ∀ (f2 : Nat) (t : List Char), t.length ≤ f1 → t.length ≤ f2 →
      splitWhitespaceRunsGo f1 t = splitWhitespaceRunsGo f2 t := by
  induction f1 with
  | zero =>
      intro f2 t h1 _
      have hnil : t = [] := List.length_eq_zero.mp (Nat.le_zero.mp h1)
      subst hnil
      cases f2 <;> rfl
  | succ f1 ih =>
      intro f2 t h1 h2
      cases t with
      | nil => cases f2 <;> rfl
      | cons c cs =>
          cases f2 with
          | zero => simp at h2
          | succ f2 =>
              simp only [List.length_cons] at h1 h2
              simp only [splitWhitespaceRunsGo]
              by_cases hc : isJsWhitespace c = true
              · rw [if_pos hc, if_pos hc]
                exact ih f2 cs (by omega) (by omega)
              · rw [if_neg hc, if_neg hc]
                congr 1
                have hle : (cs.dropWhile isWordChar).length ≤ cs.length :=
                  (List.dropWhile_suffix _).length_le
                exact ih f2 _ (by omega) (by omega)

/-- The collapse worker's result does not depend on the fuel once it
bounds the string length. -/
theorem collapseGo_fuel (f1 : Nat) :
    ∀ (f2 : Nat) (t : List Char), t.length ≤ f1 → t.length ≤ f2 →
      collapseWhitespaceRunsGo f1 t = collapseWhitespaceRunsGo f2 t := by
  induction f1 with
  | zero =>
      intro f2 t h1 _
      have hnil : t = [] := List.length_eq_zero.mp (Nat.le_zero.mp h1)
      subst hnil
      cases f2 <;> rfl
  | succ f1 ih =>
      intro f2 t h1 h2
      cases t with
      | nil => cases f2 <;> rfl
      | cons c cs =>
          cases f2 with
          | zero => simp at h2
          | succ f2 =>
              simp only [List.length_cons] at h1 h2
              simp only [collapseWhitespaceRunsGo]
              by_cases hc : isJsWhitespace c = true
              · rw [if_pos hc, if_pos hc]
                congr 1
                have hle : (cs.dropWhile isJsWhitespace).length ≤ cs.length :=
                  (List.dropWhile_suffix _).length_le
                exact ih f2 _ (by omega) (by omega)
              · rw [if_neg hc, if_neg hc]
                congr 1
                exact ih f2 cs (by omega) (by omega)

/-- Splitting skips a leading whitespace character. -/
theorem splitWhitespaceRuns_cons_of_ws {c : Char} {r : List Char}
    (h : isJsWhitespace c = true) :
    splitWhitespaceRuns (c :: r) = splitWhitespaceRuns r := by
  show splitWhitespaceRunsGo (r.length + 1) (c :: r) = splitWhitespaceRunsGo r.length r
  simp only [splitWhitespaceRunsGo, if_pos h]

/-- Splitting at a word character takes the maximal word run as the
first token. -/
theorem splitWhitespaceRuns_cons_of_not_ws {c : Char} {r : List Char}
    (h : isJsWhitespace c = false) :
    splitWhitespaceRuns (c :: r) =
      (c :: r.takeWhile isWordChar) :: splitWhitespaceRuns (r.dropWhile isWordChar) := by
  show splitWhitespaceRunsGo (r.length + 1) (c :: r) = _
  simp only [splitWhitespaceRunsGo, h, Bool.false_eq_true, if_false]
  congr 1
  exact splitGo_fuel r.length _ _ (List.dropWhile_suffix _).length_le (le_refl _)

/-- Splitting ignores leading whitespace. -/
theorem splitWhitespaceRuns_dropWhile (r : List Char) :
    splitWhitespaceRuns (r.dropWhile isJsWhitespace) = splitWhitespaceRuns r := by
  induction r with
  | nil => rfl
  | cons c cs ih =>
      by_cases h : isJsWhitespace c = true
      · rw [List.dropWhile_cons_of_pos h, ih, splitWhitespaceRuns_cons_of_ws h]
      · rw [List.dropWhile_cons_of_neg h]

/-- Collapsing a string that starts with whitespace emits one space for
the whole leading run. -/
theorem collapseWhitespaceRuns_cons_of_ws {c : Char} {r : List Char}
    (h : isJsWhitespace c = true) :
    collapseWhitespaceRuns (c :: r) =
      ' ' :: collapseWhitespaceRuns (r.dropWhile isJsWhitespace) := by
  show collapseWhitespaceRunsGo (r.length + 1) (c :: r) = _
  simp only [collapseWhitespaceRunsGo, if_pos h]
  congr 1
  exact collapseGo_fuel r.length _ _ (List.dropWhile_suffix _).length_le (le_refl _)

/-- Collapsing keeps a leading word character. -/
theorem collapseWhitespaceRuns_cons_of_not_ws {c : Char} {r : List Char}
    (h : isJsWhitespace c = false) :
    collapseWhitespaceRuns (c :: r) = c :: collapseWhitespaceRuns r := by
  show collapseWhitespaceRunsGo (r.length + 1) (c :: r) = _
  simp only [collapseWhitespaceRunsGo, h, Bool.false_eq_true, if_false]
  rfl

/-- A string with no trailing whitespace. -/
def NoTrailingWs (l : List Char) : Prop :=
  ∀ c, l.getLast? = some c → isJsWhitespace c = false

/-- The tail of a string with no trailing whitespace has none either. -/
theorem noTrailingWs_tail {c : Char} {r : List Char} (h : NoTrailingWs (c :: r)) :
    NoTrailingWs r := by
  intro d hd
  apply h d
  cases r with
  | nil => simp at hd
  | cons x t => rw [List.getLast?_cons_cons]; exact hd

/-- Dropping a prefix preserves the absence of trailing whitespace. -/
theorem noTrailingWs_dropWhile (p : Char → Bool) {l : List Char}
    (h : NoTrailingWs l) : NoTrailingWs (l.dropWhile p) := by
  intro d hd
  apply h d
  obtain ⟨pre, hpre⟩ := List.dropWhile_suffix p (l := l)
  rw [← hpre, List.getLast?_append, hd]
  rfl

/-- A non-empty string with no trailing whitespace contains a word
character, so dropping leading whitespace leaves something. -/
theorem dropWhile_ws_ne_nil {r : List Char} (hne : r ≠ []) (h : NoTrailingWs r) :
    r.dropWhile isJsWhitespace ≠ [] := by
  intro hd
  have hall : ∀ x ∈ r, isJsWhitespace x := List.dropWhile_eq_nil_iff.mp hd
  obtain ⟨d, hdl⟩ : ∃ d, r.getLast? = some d := by
    cases hr : r.getLast? with
    | none => exact absurd (List.getLast?_eq_none_iff.mp hr) hne
    | some d => exact ⟨d, rfl⟩
  have hmem : d ∈ r := List.mem_of_mem_getLast? (by simp [hdl])
  have hfalse := h d hdl
  rw [hall d hmem] at hfalse
  simp at hfalse

/-- The first character surviving `dropWhile isJsWhitespace` is a word
character. -/
theorem dropWhile_ws_head {r : List Char} {d : Char} {u : List Char}
    (h : r.dropWhile isJsWhitespace = d :: u) : isJsWhitespace d = false := by
  have hh := List.head?_dropWhile_not isJsWhitespace r
  rw [h] at hh
  simpa using hh

/-- Joining the current partial word and the remaining split against
the collapse of the remaining text: the inductive core of the
round-trip property, for text with no trailing whitespace. -/
theorem splitCollapse (fuel : Nat) :
    ∀ t : List Char, t.length ≤ fuel → NoTrailingWs t →
      List.intercalate [' ']
          (t.takeWhile isWordChar :: splitWhitespaceRuns (t.dropWhile isWordChar)) =
        collapseWhitespaceRuns t := by
  induction fuel with
  | zero =>
      intro t ht _
      have hnil : t = [] := List.length_eq_zero.mp (Nat.le_zero.mp ht)
      subst hnil
      rw [show ([] : List Char).takeWhile isWordChar = [] from rfl,
        show ([] : List Char).dropWhile isWordChar = [] from rfl]
      rw [show splitWhitespaceRuns [] = [] from rfl, intercalate_single]
      rfl
  | succ fuel ih =>
      intro t ht hNT
      cases t with
      | nil =>
          rw [show ([] : List Char).takeWhile isWordChar = [] from rfl,
            show ([] : List Char).dropWhile isWordChar = [] from rfl]
          rw [show splitWhitespaceRuns [] = [] from rfl, intercalate_single]
          rfl
      | cons c r =>
          have hr_le : r.length ≤ fuel := by
            simp only [List.length_cons] at ht
            omega
          cases hc : isJsWhitespace c with
          | false =>
              have hcw : isWordChar c = true := by simp [isWordChar, hc]
              rw [List.takeWhile_cons_of_pos hcw, List.dropWhile_cons_of_pos hcw]
              rw [intercalate_cons_head, ih r hr_le (noTrailingWs_tail hNT),
                collapseWhitespaceRuns_cons_of_not_ws hc]
          | true =>
              have hcw : isWordChar c = false := by simp [isWordChar, hc]
              rw [List.takeWhile_cons_of_neg (by simp [hcw]),
                List.dropWhile_cons_of_neg (by simp [hcw])]
              rw [splitWhitespaceRuns_cons_of_ws hc, ← splitWhitespaceRuns_dropWhile r]
              rw [collapseWhitespaceRuns_cons_of_ws hc]
              have hrne : r ≠ [] := by
                intro h0
                subst h0
                have hfalse := hNT c (by rfl)
                rw [hc] at hfalse
                simp at hfalse
              have hNTr : NoTrailingWs r := noTrailingWs_tail hNT
              have hune : r.dropWhile isJsWhitespace ≠ [] := dropWhile_ws_ne_nil hrne hNTr
              obtain ⟨d, u', hu⟩ : ∃ d u', r.dropWhile isJsWhitespace = d :: u' := by
                cases hd : r.dropWhile isJsWhitespace with
                | nil => exact absurd hd hune
                | cons d u' => exact ⟨d, u', rfl⟩
              rw [hu]
              have hd : isJsWhitespace d = false := dropWhile_ws_head hu
              rw [splitWhitespaceRuns_cons_of_not_ws hd,
                collapseWhitespaceRuns_cons_of_not_ws hd]
              rw [intercalate_cons_cons, intercalate_cons_head]
              have hNTu : NoTrailingWs (d :: u') := hu ▸ noTrailingWs_dropWhile _ hNTr
              have hNTu' : NoTrailingWs u' := noTrailingWs_tail hNTu
              have hu'le : u'.length ≤ fuel := by
                have h1 : (d :: u').length ≤ r.length := by
                  rw [← hu]
                  exact (List.dropWhile_suffix _).length_le
                simp only [List.length_cons] at h1
                omega
              rw [ih u' hu'le hNTu']
              rfl

/-- The head of `jsTrim` (when non-empty) is a word character. -/
theorem jsTrim_head_not_ws (text : List Char) {c : Char} {r : List Char}
    (h : jsTrim text = c :: r) : isJsWhitespace c = false := by
  have hdecomp : jsTrimRight (jsTrimLeft text) ++
      ((jsTrimLeft text).reverse.takeWhile isJsWhitespace).reverse = jsTrimLeft text := by
    show ((jsTrimLeft text).reverse.dropWhile isJsWhitespace).reverse ++
        ((jsTrimLeft text).reverse.takeWhile isJsWhitespace).reverse = jsTrimLeft text
    rw [← List.reverse_append, List.takeWhile_append_dropWhile, List.reverse_reverse]
  have hhead : (jsTrimLeft text).head? = some c := by
    rw [← hdecomp, List.head?_append]
    have : (jsTrim text).head? = some c := by rw [h]; rfl
    rw [show jsTrim text = jsTrimRight (jsTrimLeft text) from rfl] at this
    rw [this]
    rfl
  have hh := List.head?_dropWhile_not isJsWhitespace text
  rw [show text.dropWhile isJsWhitespace = jsTrimLeft text from rfl, hhead] at hh
  simpa using hh

/-- `jsTrim` leaves no trailing whitespace. -/
theorem jsTrim_noTrailingWs (text : List Char) : NoTrailingWs (jsTrim text) := by
  intro d hd
  have h1 : (jsTrim text).getLast? =
      ((jsTrimLeft text).reverse.dropWhile isJsWhitespace).head? := by
    show ((jsTrimLeft text).reverse.dropWhile isJsWhitespace).reverse.getLast? = _
    exact List.getLast?_reverse _
  have h2 := List.head?_dropWhile_not isJsWhitespace (jsTrimLeft text).reverse
  rw [← h1, hd] at h2
  simpa using h2

/-- The word tokenizer at chunk size 1 is the whitespace-run split of
the trimmed text. -/
theorem tokenizeText_word_one (text : List Char) :
    tokenizeText text TokenizationUnit.word 1 = splitWhitespaceRuns (jsTrim text) := by
  simp only [tokenizeText, baseTokens]
  rw [if_pos (⟨rfl, by decide⟩ : max 1 1 = 1 ∧ TokenizationUnit.word ≠ TokenizationUnit.chunk)]
  rcases hb : (splitWhitespaceRuns (jsTrim text)).isEmpty with _ | _
  · rw [if_neg (by simp [hb])]
  · rw [if_pos (by simp [hb]), List.isEmpty_iff.mp hb]

/-- C5: joining the tokens of `tokenize(text, word, 1)` with a single
space reproduces the whitespace-normalized input — the text trimmed at
both ends with every run of whitespace collapsed to one space. -/
theorem c5_tokenizer_round_trip (text : List Char) :
    List.intercalate [' '] (tokenizeText text TokenizationUnit.word 1) =
      normalizeWhitespace text := by
  rw [tokenizeText_word_one, normalizeWhitespace]
  cases ht : jsTrim text with
  | nil => rfl
  | cons c r =>
      have hc : isJsWhitespace c = false := jsTrim_head_not_ws text ht
      have hNT : NoTrailingWs (c :: r) := ht ▸ jsTrim_noTrailingWs text
      rw [splitWhitespaceRuns_cons_of_not_ws hc, intercalate_cons_head,
        splitCollapse r.length r (le_refl _) (noTrailingWs_tail hNT),
        collapseWhitespaceRuns_cons_of_not_ws hc]

end TextInterface
